import Mathlib

/-!
Verification model of the cs4all backend core: the streaming reference
sanitizer (app/services/hint_process.py), the LLM grading retry loop
(app/services/llm.py), the grading worker state machine
(app/workers/grading_worker.py) and the exercise content guard
(app/services/github.py).

Strings are modelled over their character lists; the Python regular
expressions of hint_process.py are modelled over the ASCII character
classes they use, with the backtracking order of the Python re engine
made explicit.
-/

namespace HintProcess

/-- Python re word character over ASCII: a letter, a digit or an underscore. -/
def isWordChar (c : Char) : Bool := c.isAlpha || c.isDigit || c == '_'

/-- An ID-body character, the character class of word characters and hyphen. -/
def isIdChar (c : Char) : Bool := isWordChar c || c == '-'

/-- Case-insensitive comparison of three characters against the literal
letters r, e, f, as the IGNORECASE flag makes the patterns do. -/
def isRefLetters (r e f : Char) : Bool :=
  r.toLower == 'r' && e.toLower == 'e' && f.toLower == 'f'

/-- The separator after the literal ref: a colon or a hyphen. -/
def isSep (c : Char) : Bool := c == ':' || c == '-'

/-- Consume one optional closing bracket, greedily. -/
def dropCloser : List Char → List Char
  | ']' :: rest => rest
  | s => s

/-- The greedy ID body of _RAW_REF_PATTERN: one or more ID characters,
then the optional closing bracket.  Returns the captured body and the
input that remains after the whole attempt, or nothing when the body
would be empty. -/
def bodyPart (t : List Char) : Option (List Char × List Char) :=
  if t.takeWhile isIdChar = [] then none
  else some (t.takeWhile isIdChar, dropCloser (t.dropWhile isIdChar))

/-- The first characters of the word run with its last three removed:
what the group keeps when the pattern takes the trailing ref letters. -/
def dropLast3 (w : List Char) : List Char := w.take (w.length - 3)

/-- The part of _RAW_REF_PATTERN after an explicit opening bracket:
the literal ref, a separator, then the ID body. -/
def afterBracket : List Char → Option (List Char × List Char)
  | r :: e :: f :: sep :: rest =>
    if isRefLetters r e f && isSep sep then bodyPart rest else none
  | _ => none

/-- Attempt of _RAW_REF_PATTERN in which the optional opening bracket is
present.  The bracket must be the first character of the text after the
fused word run, since a bracket is not a word character. -/
def tryBracket : List Char → Option (List Char × List Char)
  | '[' :: t2 => afterBracket t2
  | _ => none

/-- Does the word run end with the letters ref (case-insensitively)?  In
that position the pattern can match without any bracket, the group
giving back its last three characters. -/
def endsWithRef (w : List Char) : Bool :=
  match w.reverse with
  | f :: e :: r :: _ => isRefLetters r e f
  | _ => false

/-- The bracketless attempt of _RAW_REF_PATTERN: the word run ends with
the letters ref and the separator follows the run directly, as in a
truncated marker such as ref-eq-1].  The fused group keeps the run minus
those three letters. -/
def tryInRun (w t : List Char) : Option (List Char × List Char × List Char) :=
  if endsWithRef w then
    match t with
    | sep :: rest =>
      if isSep sep then
        match bodyPart rest with
        | some (b, r) => some (dropLast3 w, b, r)
        | none => none
      else none
    | [] => none
  else none

/-- One anchored attempt of _RAW_REF_PATTERN at the head of the input,
following the backtracking order of the Python engine: the maximal word
run with a bracket is tried first, then the run giving back a trailing
ref with no bracket.  Returns the fused word, the raw ID and the rest of
the input after the match. -/
def matchAt (s : List Char) : Option (List Char × List Char × List Char) :=
  match tryBracket (s.dropWhile isWordChar) with
  | some (b, r) => some (s.takeWhile isWordChar, b, r)
  | none => tryInRun (s.takeWhile isWordChar) (s.dropWhile isWordChar)

theorem dropWhile_length_le (p : Char → Bool) (l : List Char) :
    (l.dropWhile p).length ≤ l.length := by
  induction l with
  | nil => simp
  | cons x xs ih =>
    rw [List.dropWhile_cons]
    split
    · simp only [List.length_cons]
      omega
    · simp

theorem dropCloser_length_le (s : List Char) : (dropCloser s).length ≤ s.length := by
  unfold dropCloser
  split <;> simp

theorem bodyPart_length_le {t b r : List Char} (h : bodyPart t = some (b, r)) :
    r.length ≤ t.length := by
  unfold bodyPart at h
  split at h
  · exact absurd h (by simp)
  · simp only [Option.some.injEq, Prod.mk.injEq] at h
    obtain ⟨h1, h2⟩ := h
    subst h2
    calc (dropCloser (t.dropWhile isIdChar)).length
        ≤ (t.dropWhile isIdChar).length := dropCloser_length_le _
      _ ≤ t.length := dropWhile_length_le isIdChar t

theorem afterBracket_length_lt {t b r : List Char} (h : afterBracket t = some (b, r)) :
    r.length + 4 ≤ t.length := by
  unfold afterBracket at h
  split at h
  · rename_i rc ec fc sep rest
    split at h
    · have := bodyPart_length_le h
      simp only [List.length_cons]
      omega
    · exact absurd h (by simp)
  · exact absurd h (by simp)

theorem tryBracket_length_lt {t b r : List Char} (h : tryBracket t = some (b, r)) :
    r.length + 5 ≤ t.length := by
  unfold tryBracket at h
  split at h
  · rename_i t2
    have := afterBracket_length_lt h
    simp only [List.length_cons]
    omega
  · exact absurd h (by simp)

theorem tryInRun_length_lt {w t f b r : List Char} (h : tryInRun w t = some (f, b, r)) :
    r.length + 1 ≤ t.length := by
  unfold tryInRun at h
  split at h
  · split at h
    · rename_i sep rest
      split at h
      · split at h
        · rename_i b0 r0 hb
          have hle := bodyPart_length_le hb
          simp only [Option.some.injEq, Prod.mk.injEq] at h
          obtain ⟨h3, h4, h5⟩ := h
          subst h5
          simp only [List.length_cons]
          omega
        · exact absurd h (by simp)
      · exact absurd h (by simp)
    · exact absurd h (by simp)
  · exact absurd h (by simp)

theorem matchAt_rest_lt {s f b r : List Char} (h : matchAt s = some (f, b, r)) :
    r.length < s.length := by
  unfold matchAt at h
  have hlen := congrArg List.length (List.takeWhile_append_dropWhile (p := isWordChar) (l := s))
  rw [List.length_append] at hlen
  split at h
  · rename_i b0 r0 hb
    have hle := tryBracket_length_lt hb
    simp only [Option.some.injEq, Prod.mk.injEq] at h
    obtain ⟨h3, h4, h5⟩ := h
    subst h5
    omega
  · have hle := tryInRun_length_lt h
    omega

/-- The valid-ID lookup _normalize_ref_id: direct membership in the valid
set first, then membership with the ref- spelling added in front. -/
def normalize_ref_id (raw_id : List Char) (valid_ids : List (List Char)) :
    Option (List Char) :=
  if raw_id ∈ valid_ids then some raw_id
  else if ('r' :: 'e' :: 'f' :: '-' :: raw_id) ∈ valid_ids then
    some ('r' :: 'e' :: 'f' :: '-' :: raw_id)
  else none

/-- A canonical marker around an ID body, the characters of [ref:ID]. -/
def marker (x : List Char) : List Char :=
  '[' :: 'r' :: 'e' :: 'f' :: ':' :: (x ++ [']'])

/-- The replacer callback of _replace_refs: rebuild the fused word and a
canonical tag when the ID resolves, otherwise keep only the fused word. -/
def replacer (fused raw_id : List Char) (valid_ids : List (List Char)) : List Char :=
  match normalize_ref_id raw_id valid_ids with
  | some v => fused ++ marker v
  | none => fused

/-- Fuelled left-to-right scan of re.sub over _RAW_REF_PATTERN: at each
position one anchored attempt; a match is substituted through the
replacer and scanning resumes after it, otherwise the character is kept.
The fuel only bounds the recursion; the wrapper passes the input length,
which the decrease lemmas show is always enough. -/
def replaceRefsFuel (valid_ids : List (List Char)) : Nat → List Char → List Char
  | _, [] => []
  | 0, s => s
  | fuel + 1, c :: rest =>
    match matchAt (c :: rest) with
    | some (f, b, r) => replacer f b valid_ids ++ replaceRefsFuel valid_ids fuel r
    | none => c :: replaceRefsFuel valid_ids fuel rest

/-- The complete-text pass _replace_refs. -/
def replace_refs (valid_ids : List (List Char)) (s : List Char) : List Char :=
  replaceRefsFuel valid_ids s.length s

theorem replaceRefsFuel_fuel_irrel (valid_ids : List (List Char)) :
    ∀ f1 f2 s, s.length ≤ f1 → s.length ≤ f2 →
      replaceRefsFuel valid_ids f1 s = replaceRefsFuel valid_ids f2 s := by
  intro f1
  induction f1 with
  | zero =>
    intro f2 s h1 _
    have hs : s = [] := by
      cases s with
      | nil => rfl
      | cons c rest => simp at h1
    subst hs
    cases f2 <;> rfl
  | succ f ih =>
    intro f2 s h1 h2
    cases s with
    | nil => cases f2 <;> rfl
    | cons c rest =>
      cases f2 with
      | zero =>
        simp only [List.length_cons] at h2
        omega
      | succ g =>
        simp only [List.length_cons] at h1 h2
        simp only [replaceRefsFuel]
        cases hm : matchAt (c :: rest) with
        | some triple =>
          obtain ⟨fu, b, r⟩ := triple
          have hr := matchAt_rest_lt hm
          simp only [List.length_cons] at hr
          dsimp only
          rw [ih g r (by omega) (by omega)]
        | none =>
          dsimp only
          rw [ih g rest (by omega) (by omega)]

theorem replace_refs_nil (valid_ids : List (List Char)) : replace_refs valid_ids [] = [] :=
  rfl

theorem replace_refs_cons_match {c : Char} {rest f b r : List Char}
    (valid_ids : List (List Char)) (h : matchAt (c :: rest) = some (f, b, r)) :
    replace_refs valid_ids (c :: rest) =
      replacer f b valid_ids ++ replace_refs valid_ids r := by
  have hr := matchAt_rest_lt h
  simp only [List.length_cons] at hr
  unfold replace_refs
  simp only [List.length_cons, replaceRefsFuel, h]
  rw [replaceRefsFuel_fuel_irrel valid_ids rest.length r.length r (by omega) (le_refl _)]

theorem replace_refs_cons_nomatch {c : Char} {rest : List Char}
    (valid_ids : List (List Char)) (h : matchAt (c :: rest) = none) :
    replace_refs valid_ids (c :: rest) = c :: replace_refs valid_ids rest := by
  unfold replace_refs
  simp only [List.length_cons, replaceRefsFuel, h]


/-- Alternatives one and two of _INCOMPLETE_REF_SUFFIX anchored at a
start position: a word run, an opening bracket, the letters ref, a
separator, then only ID characters up to the end of the buffer. -/
def incompleteBracketRun (s : List Char) : Bool :=
  match s.dropWhile isWordChar with
  | '[' :: r :: e :: f :: sep :: rest =>
    isRefLetters r e f && isSep sep && rest.all isIdChar
  | _ => false

/-- The remaining alternatives of _INCOMPLETE_REF_SUFFIX: a suffix that
is exactly an opening bracket followed by a prefix of the letters ref. -/
def incompleteBareOpen (s : List Char) : Bool :=
  match s with
  | ['[', r, e, f] => isRefLetters r e f
  | ['[', r, e] => r.toLower == 'r' && e.toLower == 'e'
  | ['[', r] => r.toLower == 'r'
  | ['['] => true
  | _ => false

/-- Does a suffix of the buffer starting here look like the start of an
unterminated candidate, per _INCOMPLETE_REF_SUFFIX? -/
def incompleteSuffix (s : List Char) : Bool :=
  incompleteBracketRun s || incompleteBareOpen s

/-- re.search of _INCOMPLETE_REF_SUFFIX over the buffer: the position of
the leftmost (hence longest) suffix that matches, if any. -/
def findHold (buffer : List Char) : Option Nat :=
  (List.range buffer.length).find? (fun p => incompleteSuffix (buffer.drop p))

/-- The state of one HintPostProcessor instance: the fixed valid-ID set
and the mutable buffer. -/
structure PostState where
  valid_ids : List (List Char)
  buffer : List Char

/-- HintPostProcessor.feed: append the chunk, hold back the suspicious
suffix if _INCOMPLETE_REF_SUFFIX finds one, run _replace_refs on the
safe part and emit it. -/
def feed (st : PostState) (chunk : List Char) : PostState × List Char :=
  match findHold (st.buffer ++ chunk) with
  | some p =>
    ⟨⟨st.valid_ids, (st.buffer ++ chunk).drop p⟩,
      if (st.buffer ++ chunk).take p = [] then []
      else replace_refs st.valid_ids ((st.buffer ++ chunk).take p)⟩
  | none =>
    ⟨⟨st.valid_ids, []⟩,
      if st.buffer ++ chunk = [] then []
      else replace_refs st.valid_ids (st.buffer ++ chunk)⟩

/-- HintPostProcessor.flush: run _replace_refs on whatever remains in
the buffer, emit it and clear the buffer. -/
def flush (st : PostState) : PostState × List Char :=
  ⟨⟨st.valid_ids, []⟩,
    if st.buffer = [] then [] else replace_refs st.valid_ids st.buffer⟩

/-- Feed every chunk in order, then flush; the concatenation of all
emitted text, as the streaming endpoint yields it. -/
def runStream (st : PostState) : List (List Char) → List Char
  | [] => (flush st).2
  | chunk :: rest => (feed st chunk).2 ++ runStream (feed st chunk).1 rest

end HintProcess

/-- postprocess_hint: normalize a complete hint string against a
valid-ID list. -/
def postprocess_hint (text : String) (valid_ids : List String) : String :=
  ⟨HintProcess.replace_refs (valid_ids.map String.data) text.data⟩

/-- Streaming pipeline for one request: a fresh HintPostProcessor, feed
over all chunks in order, then flush, concatenating everything emitted. -/
def process_chunks (valid_ids : List String) (chunks : List String) : String :=
  ⟨HintProcess.runStream ⟨valid_ids.map String.data, []⟩ (chunks.map String.data)⟩


namespace LLM

/-- What one attempt inside the retry loop of grade_submission can do:
return a validated value, raise a GradingError from inside the attempt
(the unexpected-result-type check), or raise any other exception. -/
inductive AttemptOutcome (α : Type) (ε : Type) where
  | ok (a : α)
  | gradingErr
  | exc (e : ε)
deriving DecidableEq

/-- The observable result of grade_submission: a returned value, the
permanent GradingError raised after the loop with the last cause, or a
GradingError re-raised from inside an attempt.  Each result carries the
number of attempts that were made. -/
inductive GradeResult (α : Type) (ε : Type) where
  | success (a : α) (attempts : Nat)
  | permanentError (cause : ε) (attempts : Nat)
  | propagatedGradingError (attempts : Nat)
deriving DecidableEq

/-- The retry loop of grade_submission, one iteration per attempt index:
an ok value returns at once; a GradingError raised inside the attempt is
re-raised at once by the explicit except clause; any other exception is
recorded and the loop continues while retries remain, the final raise
carrying the last cause. -/
def gradeLoop {α ε : Type} (attempt : Nat → AttemptOutcome α ε) :
    Nat → Nat → GradeResult α ε
  | i, remaining =>
    match attempt i with
    | .ok a => .success a (i + 1)
    | .gradingErr => .propagatedGradingError (i + 1)
    | .exc e =>
      match remaining with
      | 0 => .permanentError e (i + 1)
      | r + 1 => gradeLoop attempt (i + 1) r

/-- grade_submission with a given max_retries budget: the loop runs over
attempt indices 0 to max_retries. -/
def grade_submission {α ε : Type} (max_retries : Nat)
    (attempt : Nat → AttemptOutcome α ε) : GradeResult α ε :=
  gradeLoop attempt 0 max_retries

/-- The number of attempts a result records. -/
def GradeResult.attempts {α ε : Type} : GradeResult α ε → Nat
  | .success _ n => n
  | .permanentError _ n => n
  | .propagatedGradingError n => n

end LLM

namespace Worker

/-- One feedback entry of the validated GradingResponse schema. -/
structure FeedbackItem where
  criterion : String
  points_awarded : Int
  points_possible : Int
  comment : String
deriving DecidableEq

/-- The validated structured output of the LLM grader. -/
structure GradingResponse where
  overall_score : Int
  feedback : List FeedbackItem
deriving DecidableEq

/-- The fields of one submission row the worker reads, as dictionary
lookups: a missing status key reads as none. -/
structure Submission where
  status : Option String
  lesson_id : String
  content : String
deriving DecidableEq

/-- The parsed exercise content returned by fetch_exercise_content. -/
structure ExerciseContent where
  exercise_id : String
  question : String
  solution : Option String
deriving DecidableEq

/-- The exception classes that can cross the worker's per-job handler:
the two permanent classes it names, and everything else. -/
inductive WorkerExc where
  | exerciseFetchError
  | gradingError
  | otherError
deriving DecidableEq

/-- Is the exception one of the two classes the permanent-failure except
clause names? -/
def isPermanentExc : WorkerExc → Bool
  | .exerciseFetchError => true
  | .gradingError => true
  | .otherError => false

/-- The field assignment of one datastore update statement issued by the
worker: which of the three guarded columns it sets. -/
structure UpdatePayload where
  llm_score : Option Int
  llm_feedback : Option (List FeedbackItem)
  status : Option String
deriving DecidableEq

/-- The success-path update: all three columns together. -/
def gradedUpdate (r : GradingResponse) : UpdatePayload :=
  ⟨some r.overall_score, some r.feedback, some "ai_graded"⟩

/-- The permanent-failure update: the status column alone. -/
def failedUpdate : UpdatePayload :=
  ⟨none, none, some "grading_failed"⟩

/-- The environment one process_submission call runs against: what the
datastore read returns, what fetch_exercise_content and grade_submission
do, and whether each update statement the worker may issue succeeds or
raises.  An update that raises is issued but not applied. -/
structure WorkerEnv where
  fetchSub : Except WorkerExc (Option Submission)
  fetchExercise : Except WorkerExc ExerciseContent
  grade : Except WorkerExc GradingResponse
  updateGraded : Option WorkerExc
  updateFailed : Option WorkerExc

/-- The observable trace of one process_submission call: the update
statements issued, those the datastore applied, and the exception, if
any, that escaped the handler into the consume loop. -/
structure ProcessTrace where
  issued : List UpdatePayload
  applied : List UpdatePayload
  escaped : Option WorkerExc
deriving DecidableEq

/-- The two except clauses around the grading pipeline.  The named
permanent classes lead to the grading_failed update, whose own failure
is swallowed by the inner try; any other exception is only logged. -/
def handleExc (env : WorkerEnv) (e : WorkerExc)
    (issued applied : List UpdatePayload) : ProcessTrace :=
  if isPermanentExc e then
    match env.updateFailed with
    | none => ⟨issued ++ [failedUpdate], applied ++ [failedUpdate], none⟩
    | some _ => ⟨issued ++ [failedUpdate], applied, none⟩
  else ⟨issued, applied, none⟩

/-- process_submission: read the row, stop with no write when the read
fails, the row is missing or its status is not submitted; otherwise
fetch content, grade, and write the one update the outcome dictates. -/
def process_submission (env : WorkerEnv) : ProcessTrace :=
  match env.fetchSub with
  | .error _ => ⟨[], [], none⟩
  | .ok none => ⟨[], [], none⟩
  | .ok (some sub) =>
    if sub.status = some "submitted" then
      match env.fetchExercise with
      | .error e => handleExc env e [] []
      | .ok _ =>
        match env.grade with
        | .error e => handleExc env e [] []
        | .ok res =>
          match env.updateGraded with
          | none => ⟨[gradedUpdate res], [gradedUpdate res], none⟩
          | some e => handleExc env e [gradedUpdate res] []
    else ⟨[], [], none⟩

/-- Does the environment make the job fail with an exception outside the
two named permanent classes, at any of the points of the pipeline, for a
job that passes the status guard (or already at the initial read)? -/
def hasUnexpectedFailure (env : WorkerEnv) : Bool :=
  match env.fetchSub with
  | .error _ => true
  | .ok none => false
  | .ok (some sub) =>
    if sub.status = some "submitted" then
      match env.fetchExercise with
      | .error e => !isPermanentExc e
      | .ok _ =>
        match env.grade with
        | .error e => !isPermanentExc e
        | .ok _ =>
          match env.updateGraded with
          | none => false
          | some e => !isPermanentExc e
    else false

end Worker

namespace Github

/-- Split a lesson_id at its last hash character, as rsplit with one
split does: the page part and the exercise part, or nothing when no hash
occurs. -/
def splitLastHash : List Char → Option (List Char × List Char)
  | [] => none
  | c :: rest =>
    match splitLastHash rest with
    | some (a, b) => some (c :: a, b)
    | none => if c == '#' then some ([], rest) else none

/-- _parse_lesson_id: the content file path for the page part, and the
exercise ID when a hash is present. -/
def parse_lesson_id (lesson_id : String) : String × Option String :=
  match splitLastHash lesson_id.data with
  | some (page, ex) => (⟨"note/".data ++ page ++ "/index.mdx".data⟩, some ⟨ex⟩)
  | none => (⟨"note/".data ++ lesson_id.data ++ "/index.mdx".data⟩, none)

/-- fetch_exercise_content up to its guard: with no exercise ID (no hash
in the lesson_id, or an empty part after the hash) it raises
ExerciseFetchError before the GitHub fetch; otherwise the fetch-and-
parse pipeline runs, abstracted as an oracle over the file path.  The
boolean records whether the fetch was reached. -/
def fetch_exercise_content
    (oracle : String → Except Worker.WorkerExc Worker.ExerciseContent)
    (lesson_id : String) : Bool × Except Worker.WorkerExc Worker.ExerciseContent :=
  match parse_lesson_id lesson_id with
  | (_, none) => (false, .error .exerciseFetchError)
  | (file_path, some ex) =>
    if ex = "" then (false, .error .exerciseFetchError)
    else (true, oracle file_path)

end Github

namespace LLM

theorem gradeLoop_exc_step {α ε : Type} (attempt : Nat → AttemptOutcome α ε)
    (i r : Nat) (e : ε) (he : attempt i = .exc e) :
    gradeLoop attempt i (r + 1) = gradeLoop attempt (i + 1) r := by
  conv_lhs => unfold gradeLoop
  rw [he]

theorem gradeLoop_success {α ε : Type} (attempt : Nat → AttemptOutcome α ε) (a : α) :
    ∀ k i remaining, k ≤ remaining →
      (∀ j < k, ∃ e, attempt (i + j) = .exc e) → attempt (i + k) = .ok a →
      gradeLoop attempt i remaining = .success a (i + k + 1) := by
  intro k
  induction k with
  | zero =>
    intro i remaining _ _ hok
    simp only [Nat.add_zero] at hok
    unfold gradeLoop
    rw [hok]
  | succ k ih =>
    intro i remaining hle hfail hok
    obtain ⟨e, he⟩ := hfail 0 (by omega)
    simp only [Nat.add_zero] at he
    match remaining, hle with
    | r + 1, hle =>
      rw [gradeLoop_exc_step attempt i r e he]
      have h1 : ∀ j < k, ∃ e, attempt (i + 1 + j) = .exc e := by
        intro j hj
        have harg : i + 1 + j = i + (j + 1) := by omega
        rw [harg]
        exact hfail (j + 1) (by omega)
      have h2 : attempt (i + 1 + k) = .ok a := by
        have harg : i + 1 + k = i + (k + 1) := by omega
        rw [harg]
        exact hok
      rw [ih (i + 1) r (by omega) h1 h2]
      congr 1
      omega

theorem gradeLoop_allfail {α ε : Type} (attempt : Nat → AttemptOutcome α ε) :
    ∀ remaining i,
      (∀ j ≤ remaining, ∃ e, attempt (i + j) = .exc e) →
      ∃ e, attempt (i + remaining) = .exc e ∧
        gradeLoop attempt i remaining = .permanentError e (i + remaining + 1) := by
  intro remaining
  induction remaining with
  | zero =>
    intro i hfail
    obtain ⟨e, he⟩ := hfail 0 (by omega)
    simp only [Nat.add_zero] at he
    refine ⟨e, by simpa using he, ?_⟩
    unfold gradeLoop
    rw [he]
  | succ r ih =>
    intro i hfail
    obtain ⟨e0, he0⟩ := hfail 0 (by omega)
    simp only [Nat.add_zero] at he0
    have h1 : ∀ j ≤ r, ∃ e, attempt (i + 1 + j) = .exc e := by
      intro j hj
      have harg : i + 1 + j = i + (j + 1) := by omega
      rw [harg]
      exact hfail (j + 1) (by omega)
    obtain ⟨e, he, heq⟩ := ih (i + 1) h1
    refine ⟨e, ?_, ?_⟩
    · have harg : i + 1 + r = i + (r + 1) := by omega
      rw [harg] at he
      exact he
    · rw [gradeLoop_exc_step attempt i r e0 he0, heq]
      congr 1
      omega

theorem gradeLoop_gradingErr {α ε : Type} (attempt : Nat → AttemptOutcome α ε) :
    ∀ k i remaining, k ≤ remaining →
      (∀ j < k, ∃ e, attempt (i + j) = .exc e) → attempt (i + k) = .gradingErr →
      gradeLoop attempt i remaining = .propagatedGradingError (i + k + 1) := by
  intro k
  induction k with
  | zero =>
    intro i remaining _ _ hg
    simp only [Nat.add_zero] at hg
    unfold gradeLoop
    rw [hg]
  | succ k ih =>
    intro i remaining hle hfail hg
    obtain ⟨e, he⟩ := hfail 0 (by omega)
    simp only [Nat.add_zero] at he
    match remaining, hle with
    | r + 1, hle =>
      rw [gradeLoop_exc_step attempt i r e he]
      have h1 : ∀ j < k, ∃ e, attempt (i + 1 + j) = .exc e := by
        intro j hj
        have harg : i + 1 + j = i + (j + 1) := by omega
        rw [harg]
        exact hfail (j + 1) (by omega)
      have h2 : attempt (i + 1 + k) = .gradingErr := by
        have harg : i + 1 + k = i + (k + 1) := by omega
        rw [harg]
        exact hg
      rw [ih (i + 1) r (by omega) h1 h2]
      congr 1
      omega

end LLM

namespace Worker

theorem mem_handleExc {env : WorkerEnv} {e : WorkerExc}
    {issued applied : List UpdatePayload} {u : UpdatePayload}
    (hu : u ∈ (handleExc env e issued applied).issued) :
    u ∈ issued ∨ u = failedUpdate := by
  unfold handleExc at hu
  split at hu
  · split at hu <;> simpa using hu
  · exact Or.inl hu

theorem handleExc_escaped (env : WorkerEnv) (e : WorkerExc)
    (issued applied : List UpdatePayload) :
    (handleExc env e issued applied).escaped = none := by
  unfold handleExc
  split
  · split <;> rfl
  · rfl

theorem process_escaped_none (env : WorkerEnv) :
    (process_submission env).escaped = none := by
  obtain ⟨fs, fe, gr, ug, uf⟩ := env
  rcases fs with e | osub
  · rfl
  · rcases osub with _ | sub
    · rfl
    · by_cases hs : sub.status = some "submitted"
      · rcases fe with e | ex
        · simp only [process_submission, hs, if_pos]
          exact handleExc_escaped _ _ _ _
        · rcases gr with e | res
          · simp only [process_submission, hs, if_pos]
            exact handleExc_escaped _ _ _ _
          · rcases ug with _ | e
            · simp [process_submission, hs]
            · simp only [process_submission, hs, if_pos]
              exact handleExc_escaped _ _ _ _
      · simp [process_submission, hs]

theorem unexpected_applied_nil (env : WorkerEnv)
    (h : hasUnexpectedFailure env = true) :
    (process_submission env).applied = [] := by
  obtain ⟨fs, fe, gr, ug, uf⟩ := env
  rcases fs with e | osub
  · rfl
  · rcases osub with _ | sub
    · simp [hasUnexpectedFailure] at h
    · by_cases hs : sub.status = some "submitted"
      · rcases fe with e | ex
        · cases e with
          | exerciseFetchError => simp [hasUnexpectedFailure, hs, isPermanentExc] at h
          | gradingError => simp [hasUnexpectedFailure, hs, isPermanentExc] at h
          | otherError => simp [process_submission, hs, handleExc, isPermanentExc]
        · rcases gr with e | res
          · cases e with
            | exerciseFetchError => simp [hasUnexpectedFailure, hs, isPermanentExc] at h
            | gradingError => simp [hasUnexpectedFailure, hs, isPermanentExc] at h
            | otherError => simp [process_submission, hs, handleExc, isPermanentExc]
          · rcases ug with _ | e
            · simp [hasUnexpectedFailure, hs] at h
            · cases e with
              | exerciseFetchError => simp [hasUnexpectedFailure, hs, isPermanentExc] at h
              | gradingError => simp [hasUnexpectedFailure, hs, isPermanentExc] at h
              | otherError => simp [process_submission, hs, handleExc, isPermanentExc]
      · simp [hasUnexpectedFailure, hs] at h

end Worker

namespace Github

theorem splitLastHash_eq_none {s : List Char} (h : '#' ∉ s) : splitLastHash s = none := by
  induction s with
  | nil => rfl
  | cons c rest ih =>
    simp only [List.mem_cons, not_or] at h
    unfold splitLastHash
    rw [ih h.2]
    have hc : (c == '#') = false := by
      have := h.1
      simp only [beq_eq_false_iff_ne, ne_eq]
      intro hcc
      exact this (hcc ▸ rfl)
    simp [hc]

theorem fetch_guard {lesson : String}
    (oracle : String → Except Worker.WorkerExc Worker.ExerciseContent)
    (h : '#' ∉ lesson.data) :
    fetch_exercise_content oracle lesson =
      (false, Except.error Worker.WorkerExc.exerciseFetchError) := by
  unfold fetch_exercise_content parse_lesson_id
  rw [splitLastHash_eq_none h]

end Github

/-- C1.  The chunking invariant fails on the code: the complete string
"ref-a]" (a truncated marker the raw pattern recognizes and, with an
empty valid set, deletes) passes through the stream untouched when it is
split as "re" and "f-a]", because the incomplete-suffix pattern only
withholds suffixes that contain an opening bracket, so neither chunk is
held back or ever seen as a whole.  The concatenated feed/flush output
therefore differs from the complete-string normalization. -/
theorem c1_chunking_invariant_fails :
    "re" ++ "f-a]" = "ref-a]" ∧
    process_chunks [] ["re", "f-a]"] = "ref-a]" ∧
    postprocess_hint "ref-a]" [] = "" ∧
    process_chunks [] ["re", "f-a]"] ≠ postprocess_hint "ref-a]" [] := by
  refine ⟨rfl, by decide, by decide, by decide⟩

/-- C2 counterexample.  Scenario D does not produce the spec's string:
the deleted marker sat between two spaces, and the code deletes exactly
the matched marker, so both spaces remain. -/
theorem c2_scenario_d_counterexample :
    process_chunks [] ["The val", "ue is [re", "f:ref-x9]", " done"] ≠
      "The value is done" := by
  decide

/-- C2 amended.  Feeding Scenario D's chunks with an empty valid set and
flushing yields "The value is  done" (two spaces where the marker was
deleted), with no residual bracket characters in the output. -/
theorem c2_scenario_d_amended :
    process_chunks [] ["The val", "ue is [re", "f:ref-x9]", " done"] =
      "The value is  done" ∧
    '[' ∉ (process_chunks [] ["The val", "ue is [re", "f:ref-x9]", " done"]).data ∧
    ']' ∉ (process_chunks [] ["The val", "ue is [re", "f:ref-x9]", " done"]).data := by
  refine ⟨by decide, by decide, by decide⟩

/-- C3 counterexample.  An attempt that raises GradingError (the
unexpected-result-type validation check) is re-raised at once: with
max_retries one and every attempt raising GradingError, the call stops
after one attempt instead of the claimed maxRetries plus one. -/
theorem c3_retry_counterexample :
    LLM.grade_submission 1
        (fun _ => (LLM.AttemptOutcome.gradingErr : LLM.AttemptOutcome Unit Unit)) =
      LLM.GradeResult.propagatedGradingError 1 ∧
    (LLM.grade_submission 1
        (fun _ => (LLM.AttemptOutcome.gradingErr : LLM.AttemptOutcome Unit Unit))).attempts ≠
      1 + 1 := by
  refine ⟨rfl, by decide⟩

/-- C3 amended.  For exceptions other than GradingError the loop behaves
as claimed: failures on attempts one to k followed by a success return
the value after k+1 attempts when k+1 is within the budget; if every
attempt fails this way, the call raises the permanent error after
exactly max_retries+1 attempts, carrying the cause of the last attempt;
but a GradingError raised inside an attempt propagates at once after
that attempt, with no retry. -/
theorem c3_retry_amended :
    (∀ (α ε : Type) (m k : Nat) (attempt : Nat → LLM.AttemptOutcome α ε) (a : α),
      k ≤ m → (∀ j < k, ∃ e, attempt j = .exc e) → attempt k = .ok a →
      LLM.grade_submission m attempt = .success a (k + 1)) ∧
    (∀ (α ε : Type) (m : Nat) (attempt : Nat → LLM.AttemptOutcome α ε),
      (∀ j ≤ m, ∃ e, attempt j = .exc e) →
      ∃ e, attempt m = .exc e ∧
        LLM.grade_submission m attempt = .permanentError e (m + 1)) ∧
    (∀ (α ε : Type) (m k : Nat) (attempt : Nat → LLM.AttemptOutcome α ε),
      k ≤ m → (∀ j < k, ∃ e, attempt j = .exc e) → attempt k = .gradingErr →
      LLM.grade_submission m attempt = .propagatedGradingError (k + 1)) := by
  refine ⟨?_, ?_, ?_⟩
  · intro α ε m k attempt a hk hfail hok
    have := LLM.gradeLoop_success attempt a k 0 m hk (by simpa using hfail) (by simpa using hok)
    simpa [LLM.grade_submission] using this
  · intro α ε m attempt hfail
    obtain ⟨e, he, heq⟩ := LLM.gradeLoop_allfail attempt m 0 (by simpa using hfail)
    exact ⟨e, by simpa using he, by simpa [LLM.grade_submission] using heq⟩
  · intro α ε m k attempt hk hfail hg
    have := LLM.gradeLoop_gradingErr attempt k 0 m hk (by simpa using hfail) (by simpa using hg)
    simpa [LLM.grade_submission] using this

/-- Witness for the amended retry claim: with max_retries two, a first
attempt failing with an ordinary exception and a second succeeding, the
call returns the success value after two attempts. -/
theorem c3_retry_amended_witness :
    LLM.grade_submission 2
        (fun i => if i = 0 then LLM.AttemptOutcome.exc () else LLM.AttemptOutcome.ok ()) =
      LLM.GradeResult.success () 2 := by
  have h := c3_retry_amended.1 Unit Unit 2 1
    (fun i => if i = 0 then LLM.AttemptOutcome.exc () else LLM.AttemptOutcome.ok ()) ()
    (by omega)
    (by
      intro j hj
      have hj0 : j = 0 := by omega
      subst hj0
      exact ⟨(), rfl⟩)
    rfl
  simpa using h

/-- C7.  When the row is missing, or its status is anything other than
the string submitted, process_submission issues no datastore update at
all. -/
theorem c7_idempotency_guard (env : Worker.WorkerEnv)
    (h : env.fetchSub = Except.ok none ∨
      ∃ sub, env.fetchSub = Except.ok (some sub) ∧ sub.status ≠ some "submitted") :
    (Worker.process_submission env).issued = [] ∧
    (Worker.process_submission env).applied = [] := by
  rcases h with h | ⟨sub, h, hs⟩
  · obtain ⟨fs, fe, gr, ug, uf⟩ := env
    simp only at h
    subst h
    exact ⟨rfl, rfl⟩
  · obtain ⟨fs, fe, gr, ug, uf⟩ := env
    simp only at h
    subst h
    simp [Worker.process_submission, hs]

/-- Witness for the idempotency guard: a concrete row already graded. -/
theorem c7_idempotency_guard_witness :
    (Worker.process_submission
        ⟨Except.ok (some ⟨some "ai_graded", "prml/1-exercise#1-1", "x"⟩),
          Except.error Worker.WorkerExc.otherError,
          Except.error Worker.WorkerExc.otherError, none, none⟩).issued = [] ∧
    (Worker.process_submission
        ⟨Except.ok (some ⟨some "ai_graded", "prml/1-exercise#1-1", "x"⟩),
          Except.error Worker.WorkerExc.otherError,
          Except.error Worker.WorkerExc.otherError, none, none⟩).applied = [] := by
  exact c7_idempotency_guard _ (Or.inr ⟨_, rfl, by decide⟩)

/-- C8.  Every update statement the worker issues is one of exactly two
shapes: the success update setting llm_score, llm_feedback and status
ai_graded together, or the failure update setting status grading_failed
alone with no score fields. -/
theorem c8_update_contract (env : Worker.WorkerEnv) (u : Worker.UpdatePayload)
    (hu : u ∈ (Worker.process_submission env).issued) :
    (∃ r, u = Worker.gradedUpdate r) ∨ u = Worker.failedUpdate := by
  obtain ⟨fs, fe, gr, ug, uf⟩ := env
  rcases fs with e | osub
  · simp [Worker.process_submission] at hu
  · rcases osub with _ | sub
    · simp [Worker.process_submission] at hu
    · by_cases hs : sub.status = some "submitted"
      · rcases fe with e | ex
        · simp only [Worker.process_submission, hs, if_pos] at hu
          rcases Worker.mem_handleExc hu with h | h
          · simp at h
          · exact Or.inr h
        · rcases gr with e | res
          · simp only [Worker.process_submission, hs, if_pos] at hu
            rcases Worker.mem_handleExc hu with h | h
            · simp at h
            · exact Or.inr h
          · rcases ug with _ | e
            · simp only [Worker.process_submission, hs, if_pos] at hu
              simp at hu
              exact Or.inl ⟨res, hu⟩
            · simp only [Worker.process_submission, hs, if_pos] at hu
              rcases Worker.mem_handleExc hu with h | h
              · simp at h
                exact Or.inl ⟨res, h⟩
              · exact Or.inr h
      · simp [Worker.process_submission, hs] at hu

/-- Witness for the update contract: a run that fails permanently issues
only the grading_failed shape. -/
theorem c8_update_contract_witness :
    (∃ r, Worker.failedUpdate = Worker.gradedUpdate r) ∨
      Worker.failedUpdate = Worker.failedUpdate := by
  exact c8_update_contract
    ⟨Except.ok (some ⟨some "submitted", "prml/1-exercise#1-1", "x"⟩),
      Except.error Worker.WorkerExc.exerciseFetchError,
      Except.error Worker.WorkerExc.otherError, none, none⟩
    Worker.failedUpdate (by decide)

/-- C9.  No exception ever escapes process_submission into the consume
loop, and whenever the job fails with an exception outside the two named
permanent classes (including a failed initial read), no datastore write
is applied, leaving the row at its previous status submitted. -/
theorem c9_never_propagates (env : Worker.WorkerEnv) :
    (Worker.process_submission env).escaped = none ∧
    (Worker.hasUnexpectedFailure env = true →
      (Worker.process_submission env).applied = []) := by
  exact ⟨Worker.process_escaped_none env, Worker.unexpected_applied_nil env⟩

/-- Witness: a failed initial read escapes nothing and applies nothing. -/
theorem c9_never_propagates_witness :
    (Worker.process_submission
        ⟨Except.error Worker.WorkerExc.otherError,
          Except.error Worker.WorkerExc.otherError,
          Except.error Worker.WorkerExc.otherError, none, none⟩).escaped = none ∧
    (Worker.process_submission
        ⟨Except.error Worker.WorkerExc.otherError,
          Except.error Worker.WorkerExc.otherError,
          Except.error Worker.WorkerExc.otherError, none, none⟩).applied = [] := by
  have h := c9_never_propagates
    ⟨Except.error Worker.WorkerExc.otherError,
      Except.error Worker.WorkerExc.otherError,
      Except.error Worker.WorkerExc.otherError, none, none⟩
  exact ⟨h.1, h.2 (by decide)⟩

/-- C10.  A lesson_id with no hash character makes fetch_exercise_content
raise ExerciseFetchError before the GitHub fetch runs, whatever the
content looks like; a submitted row with such a lesson_id therefore gets
exactly the grading_failed update issued. -/
theorem c10_bare_lesson_id (lesson : String)
    (oracle : String → Except Worker.WorkerExc Worker.ExerciseContent)
    (h : '#' ∉ lesson.data) :
    Github.fetch_exercise_content oracle lesson =
      (false, Except.error Worker.WorkerExc.exerciseFetchError) ∧
    (∀ env : Worker.WorkerEnv, ∀ sub : Worker.Submission,
      env.fetchSub = Except.ok (some sub) → sub.status = some "submitted" →
      sub.lesson_id = lesson →
      env.fetchExercise = (Github.fetch_exercise_content oracle lesson).2 →
      (Worker.process_submission env).issued = [Worker.failedUpdate]) := by
  have hg := Github.fetch_guard oracle h
  refine ⟨hg, ?_⟩
  intro env sub h1 h2 h3 h4
  rw [hg] at h4
  obtain ⟨fs, fe, gr, ug, uf⟩ := env
  simp only at h1 h4
  subst h1
  subst h4
  rcases uf with _ | u' <;>
    simp [Worker.process_submission, h2, Worker.handleExc, Worker.isPermanentExc]

/-- Witness: a submitted row whose lesson_id is a bare page ID. -/
theorem c10_bare_lesson_id_witness :
    Github.fetch_exercise_content (fun _ => Except.error Worker.WorkerExc.otherError)
        "prml/1-exercise" =
      (false, Except.error Worker.WorkerExc.exerciseFetchError) ∧
    (Worker.process_submission
        ⟨Except.ok (some ⟨some "submitted", "prml/1-exercise", "x"⟩),
          Except.error Worker.WorkerExc.exerciseFetchError,
          Except.error Worker.WorkerExc.otherError, none, none⟩).issued =
      [Worker.failedUpdate] := by
  have h := c10_bare_lesson_id "prml/1-exercise"
    (fun _ => Except.error Worker.WorkerExc.otherError) (by decide)
  refine ⟨h.1, ?_⟩
  exact h.2 _ ⟨some "submitted", "prml/1-exercise", "x"⟩ rfl rfl rfl (by rw [h.1])

namespace HintProcess

/-- Do the first three characters spell ref (case-insensitively)? -/
def startsWithRef : List Char → Bool
  | r :: e :: f :: _ => isRefLetters r e f
  | _ => false

/-- Does the text contain the three letters ref consecutively anywhere,
in any case?  Every candidate of _RAW_REF_PATTERN contains them. -/
def hasRef : List Char → Bool
  | [] => false
  | c :: rest => startsWithRef (c :: rest) || hasRef rest

theorem hasRef_of_append (a : List Char) (r e f : Char) (b : List Char)
    (h : isRefLetters r e f = true) : hasRef (a ++ r :: e :: f :: b) = true := by
  induction a with
  | nil => simp [hasRef, startsWithRef, h]
  | cons x a' ih =>
    rw [List.cons_append]
    show (startsWithRef (x :: (a' ++ r :: e :: f :: b)) || hasRef (a' ++ r :: e :: f :: b)) = true
    rw [ih]
    simp

theorem endsWithRef_decomp {w : List Char} (h : endsWithRef w = true) :
    ∃ w' r e f, isRefLetters r e f = true ∧ w = w' ++ [r, e, f] := by
  unfold endsWithRef at h
  split at h
  · rename_i fc ec rc rest hrev
    refine ⟨rest.reverse, rc, ec, fc, h, ?_⟩
    have hw : w = w.reverse.reverse := (List.reverse_reverse w).symm
    rw [hw, hrev]
    simp
  · exact absurd h (by simp)

theorem matchAt_some_hasRef {s : List Char} {x : List Char × List Char × List Char}
    (h : matchAt s = some x) : hasRef s = true := by
  have hsplit : s = s.takeWhile isWordChar ++ s.dropWhile isWordChar :=
    (List.takeWhile_append_dropWhile (p := isWordChar) (l := s)).symm
  unfold matchAt at h
  split at h
  · rename_i b0 r0 hb
    unfold tryBracket at hb
    split at hb
    · rename_i t2 hdrop
      unfold afterBracket at hb
      split at hb
      · rename_i rc ec fc sep rest
        split at hb
        · rename_i hcond
          rw [Bool.and_eq_true] at hcond
          rw [hsplit, hdrop]
          have : s.takeWhile isWordChar ++ '[' :: rc :: ec :: fc :: sep :: rest =
              (s.takeWhile isWordChar ++ ['[']) ++ rc :: ec :: fc :: (sep :: rest) := by
            simp
          rw [this]
          exact hasRef_of_append _ _ _ _ _ hcond.1
        · exact absurd hb (by simp)
      · exact absurd hb (by simp)
    · exact absurd hb (by simp)
  · unfold tryInRun at h
    split at h
    · rename_i hE
      obtain ⟨w', rc, ec, fc, hr, hw⟩ := endsWithRef_decomp hE
      rw [hsplit, hw]
      have : (w' ++ [rc, ec, fc]) ++ s.dropWhile isWordChar =
          w' ++ rc :: ec :: fc :: s.dropWhile isWordChar := by
        simp
      rw [this]
      exact hasRef_of_append _ _ _ _ _ hr
    · exact absurd h (by simp)

theorem hasRef_false_tail {c : Char} {rest : List Char}
    (h : hasRef (c :: rest) = false) : hasRef rest = false := by
  have heq : hasRef (c :: rest) = (startsWithRef (c :: rest) || hasRef rest) := rfl
  rw [heq, Bool.or_eq_false_iff] at h
  exact h.2

theorem replace_refs_id_of_no_ref (ids : List (List Char)) :
    ∀ s, hasRef s = false → replace_refs ids s = s := by
  intro s
  induction s with
  | nil => intro _; rfl
  | cons c rest ih =>
    intro h
    have hm : matchAt (c :: rest) = none := by
      cases hm2 : matchAt (c :: rest) with
      | none => rfl
      | some x => exact absurd (matchAt_some_hasRef hm2) (by simp [h])
    rw [replace_refs_cons_nomatch ids hm, ih (hasRef_false_tail h)]

end HintProcess

/-- C4 counterexample.  Complete-string normalization is not idempotent:
deleting the invalid marker of "re[ref:bad]f:x]" splices its fused word
re onto the following text, creating the fresh candidate "ref:x]" that a
second pass deletes. -/
theorem c4_idempotence_counterexample :
    postprocess_hint "re[ref:bad]f:x]" [] = "ref:x]" ∧
    postprocess_hint (postprocess_hint "re[ref:bad]f:x]" []) [] = "" ∧
    postprocess_hint (postprocess_hint "re[ref:bad]f:x]" []) [] ≠
      postprocess_hint "re[ref:bad]f:x]" [] := by
  refine ⟨by decide, by decide, by decide⟩

/-- C4 amended.  On any input with no consecutive letters ref (in any
case) the pass is the identity, and idempotence holds; in general a
deletion can fuse surrounding text into a new candidate, so idempotence
fails. -/
theorem c4_idempotence_amended (s : String) (ids : List String)
    (h : HintProcess.hasRef s.data = false) :
    postprocess_hint s ids = s ∧
    postprocess_hint (postprocess_hint s ids) ids = postprocess_hint s ids := by
  have hid : postprocess_hint s ids = s := by
    unfold postprocess_hint
    rw [HintProcess.replace_refs_id_of_no_ref _ s.data h]
  exact ⟨hid, by rw [hid, hid]⟩

/-- Witness: a plain sentence without the letters ref is a fixed point
of normalization, twice over. -/
theorem c4_idempotence_amended_witness :
    postprocess_hint "The area is 4 squared" ["ref-eq-1"] = "The area is 4 squared" ∧
    postprocess_hint (postprocess_hint "The area is 4 squared" ["ref-eq-1"]) ["ref-eq-1"] =
      postprocess_hint "The area is 4 squared" ["ref-eq-1"] := by
  exact c4_idempotence_amended "The area is 4 squared" ["ref-eq-1"] (by decide)

/-- C6.  For one resolved candidate whose raw ID is not a valid ID while
its ref- prefixed spelling is, the replacer emits the fused word and the
repaired canonical marker; Scenario C follows end to end. -/
theorem c6_prefix_repair :
    (∀ (fused raw : List Char) (ids : List (List Char)),
      raw ∉ ids → ('r' :: 'e' :: 'f' :: '-' :: raw) ∈ ids →
      HintProcess.replacer fused raw ids =
        fused ++ HintProcess.marker ('r' :: 'e' :: 'f' :: '-' :: raw)) ∧
    postprocess_hint "The area is[ref:eq-1] squared" ["ref-eq-1"] =
      "The area is[ref:ref-eq-1] squared" := by
  refine ⟨?_, by decide⟩
  intro fused raw ids h1 h2
  unfold HintProcess.replacer HintProcess.normalize_ref_id
  rw [if_neg h1, if_pos h2]

/-- Witness: the fused word is and the raw ID eq-1 against the valid set
holding ref-eq-1, as in Scenario C. -/
theorem c6_prefix_repair_witness :
    HintProcess.replacer ['i', 's'] ['e', 'q', '-', '1']
        [['r', 'e', 'f', '-', 'e', 'q', '-', '1']] =
      ['i', 's'] ++ HintProcess.marker ['r', 'e', 'f', '-', 'e', 'q', '-', '1'] ∧
    postprocess_hint "The area is[ref:eq-1] squared" ["ref-eq-1"] =
      "The area is[ref:ref-eq-1] squared" := by
  exact ⟨c6_prefix_repair.1 _ _ _ (by decide) (by decide), c6_prefix_repair.2⟩

namespace HintProcess

theorem marker_append (X v : List Char) :
    marker X ++ v = '[' :: 'r' :: 'e' :: 'f' :: ':' :: (X ++ ']' :: v) := by
  simp [marker]

theorem dropCloser_closer (l : List Char) : dropCloser (']' :: l) = l := rfl

theorem dropCloser_cons_ne {c : Char} (l : List Char) (h : c ≠ ']') :
    dropCloser (c :: l) = c :: l := by
  unfold dropCloser
  split
  · rename_i rest heq
    injection heq with h1 h2
    exact absurd h1 h
  · rfl

theorem tryBracket_cons_ne {c : Char} (l : List Char) (h : c ≠ '[') :
    tryBracket (c :: l) = none := by
  unfold tryBracket
  split
  · rename_i t2 heq
    injection heq with h1 h2
    exact absurd h1 h
  · rfl

theorem tryInRun_not_sep {w : List Char} {c : Char} (t : List Char)
    (h : isSep c = false) : tryInRun w (c :: t) = none := by
  unfold tryInRun
  split
  · simp [h]
  · rfl

theorem dropWhile_first_fail (p : Char → Bool) :
    ∀ l : List Char, ¬ (∀ c ∈ l, p c = true) →
      ∃ d l2, l.dropWhile p = d :: l2 ∧ p d = false := by
  intro l
  induction l with
  | nil => intro h; exact absurd (by simp) h
  | cons c rest ih =>
    intro h
    rw [List.dropWhile_cons]
    by_cases hc : p c = true
    · have hrest : ¬ (∀ x ∈ rest, p x = true) := by
        intro hall
        exact h (by
          intro x hx
          rcases List.mem_cons.mp hx with h1 | h1
          · rw [h1]; exact hc
          · exact hall x h1)
      obtain ⟨d, l2, hd, hp⟩ := ih hrest
      rw [if_pos hc]
      exact ⟨d, l2, hd, hp⟩
    · rw [if_neg hc]
      exact ⟨c, rest, rfl, by simpa using hc⟩

theorem tryBracket_marker {X : List Char} (v : List Char) (hne : X ≠ [])
    (hall : ∀ c ∈ X, isIdChar c = true) :
    tryBracket (marker X ++ v) = some (X, v) := by
  rw [marker_append]
  show afterBracket ('r' :: 'e' :: 'f' :: ':' :: (X ++ ']' :: v)) = some (X, v)
  unfold afterBracket
  dsimp only
  rw [if_pos (by decide : (isRefLetters 'r' 'e' 'f' && isSep ':') = true)]
  have htake : (X ++ ']' :: v).takeWhile isIdChar = X := by
    rw [List.takeWhile_append_of_pos hall, List.takeWhile_cons_of_neg (by decide)]
    simp
  have hdrop : (X ++ ']' :: v).dropWhile isIdChar = ']' :: v := by
    rw [List.dropWhile_append_of_pos hall, List.dropWhile_cons_of_neg (by decide)]
  unfold bodyPart
  rw [htake, hdrop, if_neg hne, dropCloser_closer]

theorem matchAt_marker {X : List Char} (v : List Char) (hne : X ≠ [])
    (hall : ∀ c ∈ X, isIdChar c = true) :
    matchAt (marker X ++ v) = some ([], X, v) := by
  have hw : (marker X ++ v).takeWhile isWordChar = [] := by
    rw [marker_append]
    exact List.takeWhile_cons_of_neg (by decide)
  have hd : (marker X ++ v).dropWhile isWordChar = marker X ++ v := by
    conv_lhs => rw [marker_append]
    rw [List.dropWhile_cons_of_neg (by decide)]
    rw [marker_append]
  simp only [matchAt, hd, hw, tryBracket_marker v hne hall]

theorem bodyPart_before_bracket (u3 rest0 : List Char) :
    bodyPart (u3 ++ '[' :: rest0) = none ∨
    ∃ b u', bodyPart (u3 ++ '[' :: rest0) = some (b, u' ++ '[' :: rest0) := by
  by_cases hall : ∀ c ∈ u3, isIdChar c = true
  · have htake : (u3 ++ '[' :: rest0).takeWhile isIdChar = u3 := by
      rw [List.takeWhile_append_of_pos hall, List.takeWhile_cons_of_neg (by decide)]
      simp
    have hdrop : (u3 ++ '[' :: rest0).dropWhile isIdChar = '[' :: rest0 := by
      rw [List.dropWhile_append_of_pos hall, List.dropWhile_cons_of_neg (by decide)]
    rcases eq_or_ne u3 [] with h0 | h0
    · left
      unfold bodyPart
      rw [htake, if_pos h0]
    · right
      refine ⟨u3, [], ?_⟩
      unfold bodyPart
      rw [htake, hdrop, if_neg h0, dropCloser_cons_ne rest0 (by decide)]
      simp
  · obtain ⟨d, u2, hdu, hd⟩ := dropWhile_first_fail isIdChar u3 hall
    have hu3 : u3 = u3.takeWhile isIdChar ++ d :: u2 := by
      conv_lhs => rw [← List.takeWhile_append_dropWhile (p := isIdChar) (l := u3)]
      rw [hdu]
    have hall1 : ∀ c ∈ u3.takeWhile isIdChar, isIdChar c = true := by
      intro c hc
      exact List.mem_takeWhile_imp hc
    have hshape : u3 ++ '[' :: rest0 =
        u3.takeWhile isIdChar ++ (d :: (u2 ++ '[' :: rest0)) := by
      conv_lhs => rw [hu3]
      simp
    have htake : (u3 ++ '[' :: rest0).takeWhile isIdChar = u3.takeWhile isIdChar := by
      rw [hshape, List.takeWhile_append_of_pos hall1,
        List.takeWhile_cons_of_neg (by simp [hd])]
      simp
    have hdrop : (u3 ++ '[' :: rest0).dropWhile isIdChar = d :: (u2 ++ '[' :: rest0) := by
      rw [hshape, List.dropWhile_append_of_pos hall1,
        List.dropWhile_cons_of_neg (by simp [hd])]
    rcases eq_or_ne (u3.takeWhile isIdChar) [] with h0 | h0
    · left
      unfold bodyPart
      rw [htake, if_pos h0]
    · right
      by_cases hdc : d = ']'
      · refine ⟨u3.takeWhile isIdChar, u2, ?_⟩
        unfold bodyPart
        rw [htake, hdrop, if_neg h0, hdc, dropCloser_closer]
      · refine ⟨u3.takeWhile isIdChar, d :: u2, ?_⟩
        unfold bodyPart
        rw [htake, hdrop, if_neg h0, dropCloser_cons_ne _ hdc]
        simp

end HintProcess

namespace HintProcess

theorem tryBracket_cons_bracket (l : List Char) :
    tryBracket ('[' :: l) = afterBracket l := rfl

theorem tryBracket_context {X : List Char} (v u2 : List Char) :
    tryBracket ('[' :: (u2 ++ (marker X ++ v))) = none ∨
    ∃ b u', tryBracket ('[' :: (u2 ++ (marker X ++ v))) =
      some (b, u' ++ (marker X ++ v)) := by
  rw [tryBracket_cons_bracket]
  match u2 with
  | [] =>
    left
    rw [List.nil_append, marker_append]
    unfold afterBracket
    dsimp only
    rw [if_neg (by decide)]
  | [x1] =>
    left
    rw [marker_append]
    show afterBracket (x1 :: '[' :: 'r' :: 'e' :: 'f' :: (':' :: (X ++ ']' :: v))) = none
    unfold afterBracket
    dsimp only
    have hcnot : ¬ ((isRefLetters x1 '[' 'r' && isSep 'e') = true) := by
      intro hcond
      rw [Bool.and_eq_true] at hcond
      exact absurd hcond.2 (by decide)
    rw [if_neg hcnot]
  | [x1, x2] =>
    left
    rw [marker_append]
    show afterBracket (x1 :: x2 :: '[' :: 'r' :: 'e' :: ('f' :: ':' :: (X ++ ']' :: v))) = none
    unfold afterBracket
    dsimp only
    have hcnot : ¬ ((isRefLetters x1 x2 '[' && isSep 'r') = true) := by
      intro hcond
      rw [Bool.and_eq_true] at hcond
      exact absurd hcond.2 (by decide)
    rw [if_neg hcnot]
  | [x1, x2, x3] =>
    left
    rw [marker_append]
    show afterBracket (x1 :: x2 :: x3 :: '[' :: ('r' :: 'e' :: 'f' :: ':' :: (X ++ ']' :: v))) = none
    unfold afterBracket
    dsimp only
    have hcnot : ¬ ((isRefLetters x1 x2 x3 && isSep '[') = true) := by
      intro hcond
      rw [Bool.and_eq_true] at hcond
      exact absurd hcond.2 (by decide)
    rw [if_neg hcnot]
  | x1 :: x2 :: x3 :: x4 :: u3 =>
    have hred : afterBracket ((x1 :: x2 :: x3 :: x4 :: u3) ++ (marker X ++ v)) =
        if (isRefLetters x1 x2 x3 && isSep x4) = true
        then bodyPart (u3 ++ (marker X ++ v)) else none := rfl
    rw [hred]
    by_cases hc : (isRefLetters x1 x2 x3 && isSep x4) = true
    · rw [if_pos hc]
      have hmv : marker X ++ v = '[' :: ('r' :: 'e' :: 'f' :: ':' :: (X ++ ']' :: v)) :=
        marker_append X v
      have hbp0 := bodyPart_before_bracket u3 ('r' :: 'e' :: 'f' :: ':' :: (X ++ ']' :: v))
      rw [← hmv] at hbp0
      exact hbp0
    · rw [if_neg hc]
      left
      rfl

theorem matchAt_context {X : List Char} (hne : X ≠ [])
    (hall : ∀ c ∈ X, isIdChar c = true) (u v : List Char) :
    matchAt (u ++ (marker X ++ v)) = none ∨
    (∃ f b u', matchAt (u ++ (marker X ++ v)) =
      some (f, b, u' ++ (marker X ++ v))) ∨
    (∃ f, matchAt (u ++ (marker X ++ v)) = some (f, X, v)) := by
  by_cases hWord : ∀ c ∈ u, isWordChar c = true
  · right; right
    have hw : (u ++ (marker X ++ v)).takeWhile isWordChar = u := by
      rw [List.takeWhile_append_of_pos hWord]
      have h2 : (marker X ++ v).takeWhile isWordChar = [] := by
        rw [marker_append]
        exact List.takeWhile_cons_of_neg (by decide)
      rw [h2, List.append_nil]
    have hd : (u ++ (marker X ++ v)).dropWhile isWordChar = marker X ++ v := by
      rw [List.dropWhile_append_of_pos hWord]
      conv_lhs => rw [marker_append]
      rw [List.dropWhile_cons_of_neg (by decide), ← marker_append]
    exact ⟨u, by simp only [matchAt, hd, hw, tryBracket_marker v hne hall]⟩
  · obtain ⟨d, u2, hdu, hdf⟩ := dropWhile_first_fail isWordChar u hWord
    have hu_eq : u = u.takeWhile isWordChar ++ d :: u2 := by
      conv_lhs => rw [← List.takeWhile_append_dropWhile (p := isWordChar) (l := u)]
      rw [hdu]
    have hall1 : ∀ c ∈ u.takeWhile isWordChar, isWordChar c = true :=
      fun _ hc => List.mem_takeWhile_imp hc
    have hshape : u ++ (marker X ++ v) =
        u.takeWhile isWordChar ++ (d :: (u2 ++ (marker X ++ v))) := by
      conv_lhs => rw [hu_eq]
      simp
    have hw : (u ++ (marker X ++ v)).takeWhile isWordChar = u.takeWhile isWordChar := by
      rw [hshape, List.takeWhile_append_of_pos hall1,
        List.takeWhile_cons_of_neg (by simp [hdf]), List.append_nil]
    have hdr : (u ++ (marker X ++ v)).dropWhile isWordChar =
        d :: (u2 ++ (marker X ++ v)) := by
      rw [hshape, List.dropWhile_append_of_pos hall1,
        List.dropWhile_cons_of_neg (by simp [hdf])]
    by_cases hdb : d = '['
    · subst hdb
      rcases tryBracket_context (X := X) v u2 with hb | ⟨b, u', hb⟩
      · left
        simp only [matchAt, hdr, hb]
        exact tryInRun_not_sep _ (by decide)
      · right; left
        exact ⟨u.takeWhile isWordChar, b, u',
          by simp only [matchAt, hdr, hb, hw]⟩
    · have hb : tryBracket (d :: (u2 ++ (marker X ++ v))) = none :=
        tryBracket_cons_ne _ hdb
      by_cases hE : endsWithRef (u.takeWhile isWordChar) = true
      case neg =>
        left
        simp only [matchAt, hdr, hb, hw]
        unfold tryInRun
        rw [if_neg hE]
      case pos =>
        by_cases hS : isSep d = true
        case neg =>
          left
          simp only [matchAt, hdr, hb, hw]
          exact tryInRun_not_sep _ (by simpa using hS)
        case pos =>
          have hred : tryInRun (u.takeWhile isWordChar) (d :: (u2 ++ (marker X ++ v))) =
              (match bodyPart (u2 ++ (marker X ++ v)) with
               | some (b, r) => some (dropLast3 (u.takeWhile isWordChar), b, r)
               | none => none) := by
            unfold tryInRun
            rw [if_pos hE]
            dsimp only
            rw [if_pos hS]
          have hmv : marker X ++ v = '[' :: ('r' :: 'e' :: 'f' :: ':' :: (X ++ ']' :: v)) :=
            marker_append X v
          have hbp0 := bodyPart_before_bracket u2 ('r' :: 'e' :: 'f' :: ':' :: (X ++ ']' :: v))
          rw [← hmv] at hbp0
          rcases hbp0 with hbp | ⟨b, u', hbp⟩
          · left
            simp only [matchAt, hdr, hb, hw, hred, hbp]
          · right; left
            exact ⟨dropLast3 (u.takeWhile isWordChar), b, u',
              by simp only [matchAt, hdr, hb, hw, hred, hbp]⟩

theorem replace_refs_context (ids : List (List Char)) {X : List Char}
    (hmem : X ∈ ids) (hne : X ≠ []) (hall : ∀ c ∈ X, isIdChar c = true) :
    ∀ n u v, (u ++ (marker X ++ v)).length ≤ n →
      ∃ a b, replace_refs ids (u ++ (marker X ++ v)) = a ++ (marker X ++ b) := by
  intro n
  induction n with
  | zero =>
    intro u v hlen
    exfalso
    simp [marker, List.length_append] at hlen
  | succ n ih =>
    intro u v hlen
    cases u with
    | nil =>
      have hm := matchAt_marker v hne hall
      have hshape := marker_append X v
      rw [hshape] at hm
      have hstep : replace_refs ids (marker X ++ v) =
          replacer [] X ids ++ replace_refs ids v := by
        rw [hshape]
        exact replace_refs_cons_match ids hm
      have hrep : replacer [] X ids = marker X := by
        unfold replacer normalize_ref_id
        rw [if_pos hmem]
        simp
      refine ⟨[], replace_refs ids v, ?_⟩
      rw [List.nil_append, hstep, hrep, List.nil_append]
    | cons c u0 =>
      rcases matchAt_context hne hall (c :: u0) v with hm | ⟨f, b, u', hm⟩ | ⟨f, hm⟩
      · have hm2 : matchAt (c :: (u0 ++ (marker X ++ v))) = none := hm
        have hstep := replace_refs_cons_nomatch ids hm2
        have hlen2 : (u0 ++ (marker X ++ v)).length ≤ n := by
          simp only [List.cons_append, List.length_cons] at hlen
          omega
        obtain ⟨a, b2, hrec⟩ := ih u0 v hlen2
        refine ⟨c :: a, b2, ?_⟩
        rw [List.cons_append, List.cons_append, hstep, hrec]
      · have hm2 : matchAt (c :: (u0 ++ (marker X ++ v))) =
            some (f, b, u' ++ (marker X ++ v)) := hm
        have hstep := replace_refs_cons_match ids hm2
        have hlen2 : (u' ++ (marker X ++ v)).length ≤ n := by
          have := matchAt_rest_lt hm2
          simp only [List.length_cons] at this
          simp only [List.cons_append, List.length_cons] at hlen
          omega
        obtain ⟨a, b2, hrec⟩ := ih u' v hlen2
        refine ⟨replacer f b ids ++ a, b2, ?_⟩
        rw [List.cons_append, hstep, hrec, List.append_assoc]
      · have hm2 : matchAt (c :: (u0 ++ (marker X ++ v))) = some (f, X, v) := hm
        have hstep := replace_refs_cons_match ids hm2
        have hrep : replacer f X ids = f ++ marker X := by
          unfold replacer normalize_ref_id
          rw [if_pos hmem]
        refine ⟨f, replace_refs ids v, ?_⟩
        rw [List.cons_append, hstep, hrep, List.append_assoc]

end HintProcess

theorem string_data_append (a b : String) : (a ++ b).data = a.data ++ b.data := rfl

/-- C5 counterexample.  IDs are opaque strings per the AnchorMap
contract, but a valid ID containing a space does not survive: with the
valid set holding the ID a b, the well-formed marker is mangled, because
the ID grammar of the pattern stops at the space. -/
theorem c5_passthrough_counterexample :
    postprocess_hint "[ref:a b]" ["a b"] = " b]" ∧
    postprocess_hint "[ref:a b]" ["a b"] ≠ "[ref:a b]" := by
  refine ⟨by decide, by decide⟩

/-- C5 amended.  For a valid ID that is non-empty and drawn from the ID
grammar of the marker pattern (word characters and hyphens — the only
IDs a well-formed marker can carry), the marker [ref:X] survives
normalization verbatim wherever it occurs: the output around it may be
rewritten, but the output always contains the marker itself. -/
theorem c5_passthrough_amended (X : String) (ids : List String) (u v : String)
    (h1 : X ∈ ids) (h2 : X.data ≠ [])
    (h3 : ∀ c ∈ X.data, HintProcess.isIdChar c = true) :
    ∃ a b : List Char,
      (postprocess_hint (u ++ ("[ref:" ++ X ++ "]") ++ v) ids).data =
        a ++ (HintProcess.marker X.data ++ b) := by
  have hdata : (u ++ ("[ref:" ++ X ++ "]") ++ v).data =
      u.data ++ (HintProcess.marker X.data ++ v.data) := by
    simp only [string_data_append]
    unfold HintProcess.marker
    simp
  have hmem : X.data ∈ ids.map String.data := List.mem_map_of_mem _ h1
  obtain ⟨a, b, hab⟩ := HintProcess.replace_refs_context (ids.map String.data) hmem h2 h3
    (u.data ++ (HintProcess.marker X.data ++ v.data)).length u.data v.data (le_refl _)
  refine ⟨a, b, ?_⟩
  unfold postprocess_hint
  rw [hdata]
  exact hab

/-- Witness: the marker for the valid ID ref-p-1 survives inside
surrounding prose. -/
theorem c5_passthrough_amended_witness :
    ∃ a b : List Char,
      (postprocess_hint ("see " ++ ("[ref:" ++ "ref-p-1" ++ "]") ++ " ok") ["ref-p-1"]).data =
        a ++ (HintProcess.marker "ref-p-1".data ++ b) := by
  exact c5_passthrough_amended "ref-p-1" ["ref-p-1"] "see " " ok"
    (by decide) (by decide) (by decide)
